import Mathlib

/-!
Verification of the metadata-update pipeline in `scripts/update.ts` of the
eslint-stylistic repository.

The script is shallowly embedded: the filesystem and the dynamic module
loader are passed in as data (`PackageInput` describes one discovered
package directory: its name in `package.json`, its rule sub-directories,
which entry extensions exist, and the loaded module's shape), and each
function of the script becomes a Lean function over that data.  Fallible
steps (a missing entry file, a missing `default.meta` in `generateDTS`,
the non-null assertions of `run`) become `Except String`.  The external
schema compiler `json-schema-to-typescript` is an explicit parameter of
the `generateDTS` model.  Source line numbers refer to
`src/scripts/update.ts`.
-/

set_option maxRecDepth 10000

namespace Stylistic

/-- Whether `pat` is an initial segment of `l` (helper for the string
replacements below; implemented structurally so the kernel can evaluate
it). -/
def headMatches : List Char → List Char → Bool
  | [], _ => true
  | _ :: _, [] => false
  | p :: ps, c :: cs => p = c && headMatches ps cs

/-- Replace the first occurrence of `pat` in the character list. -/
def replaceFirstAux (pat rep : List Char) : List Char → List Char
  | [] => if pat.isEmpty then rep else []
  | c :: cs =>
    if headMatches pat (c :: cs) then rep ++ (c :: cs).drop pat.length
    else c :: replaceFirstAux pat rep cs

/-- JS `String.prototype.replace` with a plain-string pattern replaces only
the FIRST occurrence (used at update.ts:81 and update.ts:82). -/
def replaceFirst (s pat rep : String) : String :=
  ⟨replaceFirstAux pat.data rep.data s.data⟩

/-- Replace every occurrence of a nonempty `pat` in the character list,
scanning left to right and continuing after each replacement. -/
def replaceAllAux (pat rep : List Char) : List Char → List Char
  | [] => []
  | c :: cs =>
    if headMatches pat (c :: cs) && !pat.isEmpty then
      rep ++ replaceAllAux pat rep (cs.drop (pat.length - 1))
    else c :: replaceAllAux pat rep cs
termination_by l => l.length
decreasing_by
  · simp only [List.length_cons, List.length_drop]
    omega
  · simp

/-- JS `String.prototype.replace` with a `/g` regex over a literal pattern
replaces every occurrence (update.ts:275). -/
def replaceAll (s pat rep : String) : String :=
  ⟨replaceAllAux pat.data rep.data s.data⟩

/-- A single apostrophe, as used by the generated type text. -/
def sq : String := String.singleton (Char.ofNat 39)

/-- Lexicographic "is not greater" comparison of character lists by code
point — the default comparator JS `Array.prototype.sort` applies to
strings (code points and UTF-16 code units order identically on the ASCII
names involved).  Implemented structurally so the kernel can evaluate
it. -/
def charListLe : List Char → List Char → Bool
  | [], _ => true
  | _ :: _, [] => false
  | a :: as, b :: bs =>
    if a.toNat < b.toNat then true
    else if b.toNat < a.toNat then false
    else charListLe as bs

/-- Lexicographic string comparison, the order of JS `.sort()`. -/
def strLe (a b : String) : Bool := charListLe a.data b.data

/-- JS `Array.prototype.join` with a separator. -/
def joinSep (sep : String) : List String → String
  | [] => ""
  | [x] => x
  | x :: y :: xs => x ++ sep ++ joinSep sep (y :: xs)

/-! ## Data model: the rule-module contract (spec section 6) -/

/-- The `docs` sub-object of a rule module's `meta` descriptor. -/
structure ModDocs where
  description : Option String
  recommended : Option Bool
deriving DecidableEq, Repr

/-- A rule's declared options schema: a single schema object or an array of
schema objects.  A schema itself is kept as its JSON text, since the script
only rewrites that text (update.ts:275) and feeds it to the external
compiler. -/
inductive SchemaDecl where
  | single (s : String)
  | arr (ss : List String)
deriving DecidableEq, Repr

/-- The optional `meta` descriptor of a rule module's default export.
`messages` keeps the message ids in insertion order (JS `Object.keys`). -/
structure ModMeta where
  fixable : Option String
  docs : Option ModDocs
  messages : Option (List String)
  schema : Option SchemaDecl
deriving DecidableEq, Repr

/-- A rule module's default export (`mod.default`), which may lack `meta`. -/
structure DefaultExport where
  meta : Option ModMeta
deriving DecidableEq, Repr

/-- A loaded rule module; `dflt` models the `default` export, which may be
absent. -/
structure RuleModule where
  dflt : Option DefaultExport
deriving DecidableEq, Repr

/-- One rule sub-directory of a package's `rules/` directory, as the
filesystem presents it to the script: the directory's basename, whether the
`<name>.ts` and `<name>.js` entry files exist, and the module the entry file
contains when it can be imported. -/
structure RuleDirInput where
  name : String
  hasTs : Bool
  hasJs : Bool
  modul : RuleModule
deriving DecidableEq, Repr

/-- One discovered package directory `packages/<dir>` with its
`package.json` name and its rule sub-directories (in raw filesystem order;
the script sorts them). -/
structure PackageInput where
  dir : String
  pkgJsonName : String
  ruleDirs : List RuleDirInput
deriving DecidableEq, Repr

/-! ## Data model: the assembled metadata (spec section 3)

`RuleInfo` and `PackageInfo` mirror `packages/metadata/src/types`, which is
outside `src/`; their field shapes follow the spec's data model (`meta`
present, `docs` optional inside it, leaves optional).  `Option` models a
field that may be `undefined`. -/

/-- The `docs` part of an assembled rule record. -/
structure RuleDocsInfo where
  description : Option String
  recommended : Option Bool
deriving DecidableEq, Repr

/-- The `meta` part of an assembled rule record. -/
structure RuleMetaInfo where
  fixable : Option String
  docs : Option RuleDocsInfo
deriving DecidableEq, Repr

/-- An assembled rule record (update.ts:100-120). -/
structure RuleInfo where
  name : String
  ruleId : String
  originalId : Option String
  entry : String
  docsEntry : String
  meta : RuleMetaInfo
deriving DecidableEq, Repr

/-- An assembled package record (update.ts:125-131). -/
structure PackageInfo where
  name : String
  shortId : String
  pkgId : String
  path : String
  rules : List RuleInfo
deriving DecidableEq, Repr

/-! ## readPackage (update.ts:79-132) -/

/-- update.ts:81 — `pkgId` from the directory basename with
`eslint-plugin-` stripped (first occurrence, JS `replace`). -/
def pkgIdOf (dir : String) : String :=
  "@stylistic/" ++ replaceFirst dir "eslint-plugin-" ""

/-- update.ts:82 — `shortId` strips the `@stylistic/` namespace back off. -/
def shortIdOf (pkgId : String) : String :=
  replaceFirst pkgId "@stylistic/" ""

/-- update.ts:103-109 — `originalId` is computed purely from `shortId`;
unrecognized package kinds get the empty string. -/
def originalIdOf (shortId name : String) : Option String :=
  if shortId = "js" then some name
  else if shortId = "ts" then some ("@typescript-eslint/" ++ name)
  else if shortId = "jsx" then some ("react/" ++ name)
  else some ""

/-- The `<name>.ts` entry candidate (update.ts:93). -/
def tsEntryOf (path ruleName : String) : String :=
  path ++ "/rules/" ++ ruleName ++ "/" ++ ruleName ++ ".ts"

/-- The `<name>.js` fallback entry candidate (update.ts:95). -/
def jsEntryOf (path ruleName : String) : String :=
  path ++ "/rules/" ++ ruleName ++ "/" ++ ruleName ++ ".js"

/-- update.ts:93-95 — the `.ts` entry is chosen when it exists, otherwise
the `.js` entry (whose existence is not checked before the import). -/
def resolveEntry (path : String) (rd : RuleDirInput) : String :=
  if rd.hasTs then tsEntryOf path rd.name else jsEntryOf path rd.name

/-- Whether the resolved entry file exists, i.e. whether the dynamic import
of update.ts:98 succeeds. -/
def entryOk (rd : RuleDirInput) : Bool :=
  rd.hasTs || rd.hasJs

/-- update.ts:99-120 — the rule record built from a loadable rule
directory.  `meta` and `docs` are always constructed; optional chaining
(`mod.default?.meta`, `meta?.docs?.description`) means only the leaves can
be `undefined`. -/
def ruleInfoOf (path pkgId shortId : String) (rd : RuleDirInput) : RuleInfo :=
  let metaOpt := rd.modul.dflt.bind (·.meta)
  { name := rd.name
    ruleId := pkgId ++ "/" ++ rd.name
    originalId := originalIdOf shortId rd.name
    entry := resolveEntry path rd
    docsEntry := path ++ "/rules/" ++ rd.name ++ "/README.md"
    meta :=
      { fixable := metaOpt.bind (·.fixable)
        docs := some
          { description := (metaOpt.bind (·.docs)).bind (·.description)
            recommended := (metaOpt.bind (·.docs)).bind (·.recommended) } } }

/-- update.ts:91-121 — one per-rule load: resolve the entry, import it
(failing with `ERR_MODULE_NOT_FOUND` when neither extension exists), and
assemble the `RuleInfo`. -/
def loadRule (path pkgId shortId : String) (rd : RuleDirInput) : Except String RuleInfo :=
  if entryOk rd then .ok (ruleInfoOf path pkgId shortId rd)
  else .error ("ERR_MODULE_NOT_FOUND: " ++ resolveEntry path rd)

/-- `Promise.all` over the per-rule loads (update.ts:90): all loads must
succeed, and the results stand in the order of the input list. -/
def loadAll (path pkgId shortId : String) : List RuleDirInput → Except String (List RuleInfo)
  | [] => .ok []
  | rd :: rds => do
    let r ← loadRule path pkgId shortId rd
    let rs ← loadAll path pkgId shortId rds
    .ok (r :: rs)

/-- Insertion of one element into a list sorted by a string key. -/
def insertByKey (key : α → String) (a : α) : List α → List α
  | [] => [a]
  | x :: xs => if strLe (key a) (key x) then a :: x :: xs else x :: insertByKey key a xs

/-- Lexicographic sort by a string key, modelling JS `Array.prototype.sort`
with the default (code-unit lexicographic) comparator. -/
def sortByKey (key : α → String) (l : List α) : List α :=
  l.foldr (insertByKey key) []

/-- update.ts:85-88 — `fg('rules/*')` yields the relative directory paths
`rules/<name>`, which `.sort()` orders lexicographically. -/
def sortRuleDirs (l : List RuleDirInput) : List RuleDirInput :=
  sortByKey (fun rd => "rules/" ++ rd.name) l

/-- update.ts:79-132 — read one package: derive the identifiers, sort the
rule directories, load every rule, and assemble the `PackageInfo`. -/
def readPackage (inp : PackageInput) : Except String PackageInfo :=
  (loadAll ("packages/" ++ inp.dir) (pkgIdOf inp.dir) (shortIdOf (pkgIdOf inp.dir))
      (sortRuleDirs inp.ruleDirs)).map fun rules =>
    { name := inp.pkgJsonName, shortId := shortIdOf (pkgIdOf inp.dir)
      pkgId := pkgIdOf inp.dir, path := "packages/" ++ inp.dir
      rules := rules }

/-! ## run (update.ts:22-75): discovery order, merge, global metadata -/

/-- update.ts:23-30 — the glob yields absolute paths
`<cwd>/packages/<dir>/package.json`; sorting them (common prefix
`<cwd>/packages/`) orders the packages by `<dir>/package.json`. -/
def sortInputs (l : List PackageInput) : List PackageInput :=
  sortByKey (fun inp => inp.dir ++ "/package.json") l

/-- The sequential loop body of update.ts:33-41 over the sorted paths. -/
def readAllLoop : List PackageInput → Except String (List PackageInfo)
  | [] => .ok []
  | inp :: rest => do
    let p ← readPackage inp
    let ps ← readAllLoop rest
    .ok (p :: ps)

/-- update.ts:32-41 — read every discovered package, in sorted discovery
order (the artifact writers interleaved there are modelled separately by
the trace model below). -/
def readAll (inputs : List PackageInput) : Except String (List PackageInfo) :=
  readAllLoop (sortInputs inputs)

/-- Insertion-order deduplication with an accumulator of already-seen
names: the iteration order of a JS `Set` built from a list
(update.ts:49-53) keeps the first occurrence of each element. -/
def dedupAux (seen : List String) : List String → List String
  | [] => []
  | x :: xs => if x ∈ seen then dedupAux seen xs else x :: dedupAux (x :: seen) xs

/-- `[...new Set(l)]`: `l` with later duplicates removed. -/
def dedupNames (l : List String) : List String :=
  dedupAux [] l

/-- update.ts:55 — `find` on js, else ts, else jsx (`a! || b! || c!`: the
non-null assertions have no runtime effect, so the chain falls through on
`undefined`). -/
def pickRule (packageJs packageTs packageJsx : PackageInfo) (name : String) :
    Option RuleInfo :=
  (packageJs.rules.find? (·.name = name)).orElse fun _ =>
    (packageTs.rules.find? (·.name = name)).orElse fun _ =>
      packageJsx.rules.find? (·.name = name)

/-- Stand-in for the unreachable branch of `mergedRules` where a name from
the union is found in no source package (JS would spread `undefined`). -/
def undefinedRule : RuleInfo :=
  { name := "", ruleId := "", originalId := none, entry := "", docsEntry := ""
    meta := { fixable := none, docs := none } }

/-- update.ts:49-61 — the merged rule list: the deduplicated union of the
three packages' rule names in first-encounter order, each name mapped to
the first source package's record with `ruleId` rewritten into the merged
namespace and `originalId` cleared. -/
def mergedRules (packageJs packageTs packageJsx : PackageInfo) : List RuleInfo :=
  (dedupNames (packageJs.rules.map (·.name) ++ packageTs.rules.map (·.name)
      ++ packageJsx.rules.map (·.name))).map fun name =>
    match pickRule packageJs packageTs packageJsx name with
    | some rule => { rule with ruleId := "@stylistic/" ++ name, originalId := none }
    | none => undefinedRule

/-- Replace the first element satisfying `p` — the in-place mutation of the
object `Array.prototype.find` returned (update.ts:46,49,62). -/
def updateFirst (p : α → Bool) (f : α → α) : List α → List α
  | [] => []
  | x :: xs => if p x then f x :: xs else x :: updateFirst p f xs

/-- update.ts:43-62 — look up the js/ts/jsx/general packages (a missing one
makes the subsequent property access throw a `TypeError`), then mutate the
general package in place: its `rules` become the merged rules and its
`shortId` becomes `default`. -/
def mergeStep (packages : List PackageInfo) : Except String (List PackageInfo) :=
  match packages.find? (·.shortId = "js"), packages.find? (·.shortId = "ts"),
      packages.find? (·.shortId = "jsx"),
      packages.find? (·.name = "@stylistic/eslint-plugin") with
  | some packageJs, some packageTs, some packageJsx, some _ =>
    .ok (updateFirst (·.name = "@stylistic/eslint-plugin")
      (fun p => { p with rules := mergedRules packageJs packageTs packageJsx
                         shortId := "default" })
      packages)
  | _, _, _, _ => .error "TypeError: cannot read properties of undefined"

/-- The in-memory content of the global metadata module
`packages/metadata/src/metadata.ts` (update.ts:64-74): the full
post-merge package list (serialized inside `Object.freeze`) and the
flattened rule list `packages.flatMap(p => p.rules)`. -/
structure MetadataOut where
  packages : List PackageInfo
  rules : List RuleInfo
deriving DecidableEq, Repr

/-- update.ts:22-75 — the whole in-memory pipeline of `run`: read all
packages in sorted discovery order, perform the merge mutation, and build
the global metadata content. -/
def runMetadata (inputs : List PackageInput) : Except String MetadataOut :=
  match readAll inputs with
  | .error e => .error e
  | .ok ps =>
    match mergeStep ps with
    | .error e => .error e
    | .ok merged => .ok { packages := merged, rules := merged.flatMap (·.rules) }

/-! ## generateDTS (update.ts:263-310): per-rule type declarations

The external compiler `json-schema-to-typescript` is passed in as a
function `compile : String → Nat → Except String String` (the normalized
schema text and the index, i.e. the `Schema<index>` name it is asked to
produce); `.error` models a thrown compilation error. -/

/-- The generated-file header (update.ts:16-18, after `trimStart`). -/
def header : String :=
  "/* GENERATED, DO NOT EDIT DIRECTLY */\n"

/-- update.ts:275 — rewrite the internal-reference quirk
`#/items/0/$defs/` to `#/$defs/`; the JS regex carries the `g` flag, and
`String.replace` in Lean also replaces every occurrence. -/
def normalizeSchema (s : String) : String :=
  replaceAll s "#/items/0/$defs/" "#/$defs/"

/-- update.ts:277-290 — compile one schema entry; on failure, warn (the
warning text names the rule and the schema index) and fall back to the
placeholder declaration.  Returns the declaration text and the warnings
emitted. -/
def compileEntry (compile : String → Nat → Except String String)
    (ruleName : String) (index : Nat) (schema : String) : String × List String :=
  match compile (normalizeSchema schema) index with
  | .ok compiled => (compiled, [])
  | .error _ =>
    ("export type Schema" ++ toString index ++ " = unknown\n",
      ["Failed to compile schema Schema" ++ toString index ++ " for rule "
        ++ ruleName ++ ". Falling back to unknown."])

/-- The per-entry compilation loop of update.ts:274-291, from a given start
index: the declaration texts in positional order and all warnings. -/
def compileOptionsFrom (compile : String → Nat → Except String String)
    (ruleName : String) (index : Nat) :
    List String → List String × List String
  | [] => ([], [])
  | schema :: rest =>
    ((compileEntry compile ruleName index schema).1
        :: (compileOptionsFrom compile ruleName (index + 1) rest).1,
      (compileEntry compile ruleName index schema).2
        ++ (compileOptionsFrom compile ruleName (index + 1) rest).2)

/-- update.ts:274-291 — compile every schema entry of a rule. -/
def compileOptions (compile : String → Nat → Except String String)
    (ruleName : String) (schemas : List String) : List String × List String :=
  compileOptionsFrom compile ruleName 0 schemas

/-- update.ts:270-272 — the list of schema entries: absent means none, a
single (non-array) schema is wrapped in a one-element list, an array is
taken as is. -/
def schemasOf : Option SchemaDecl → List String
  | none => []
  | some (.single s) => [s]
  | some (.arr ss) => ss

/-- update.ts:293-298 — the `RuleOptions` right-hand side: a tuple of
all-optional `Schema<i>?` entries when `meta.schema` is an array, `Schema0`
when it is a single (truthy) schema object, `[]` when it is absent.
`optionCount` is `options.length`, i.e. the number of schema entries. -/
def ruleOptionTypeValue (schema : Option SchemaDecl) (optionCount : Nat) : String :=
  match schema with
  | some (.arr _) =>
    "[" ++ joinSep ", "
      ((List.range optionCount).map fun i => "Schema" ++ toString i ++ "?") ++ "]"
  | some (.single _) => "Schema0"
  | none => "[]"

/-- update.ts:304 — the `MessageIds` right-hand side: the ids as quoted
string literals joined with `|`, or `never` when the join is empty (JS
`|| 'never'`). -/
def messageIdsType (ids : List String) : String :=
  let joined := joinSep " | " (ids.map fun i => sq ++ i ++ sq)
  if joined = "" then "never" else joined

/-- update.ts:266-308 — the content of one rule's `types.d.ts` (as the list
of lines later joined with newlines) together with the warnings emitted.
The module is re-imported and `module.default.meta` is read WITHOUT
optional chaining (update.ts:268), so a missing default export or a
missing `meta` throws a `TypeError`. -/
def generateRuleDTS (compile : String → Nat → Except String String)
    (ruleName : String) (modul : RuleModule) :
    Except String (List String × List String) :=
  match modul.dflt with
  | none => .error "TypeError: cannot read meta of undefined"
  | some d =>
    match d.meta with
    | none => .error "TypeError: cannot read messages of undefined"
    | some m =>
      .ok ([header] ++ (compileOptions compile ruleName (schemasOf m.schema)).1
          ++ ["export type RuleOptions = "
                ++ ruleOptionTypeValue m.schema
                  (compileOptions compile ruleName (schemasOf m.schema)).1.length,
              "export type MessageIds = " ++ messageIdsType (m.messages.getD []), ""],
        (compileOptions compile ruleName (schemasOf m.schema)).2)

/-! ## Write-sequencing trace model of run's artifact writers (update.ts:33-41)

Each writer is modelled at the level of the write attempts it makes:
`fs path` says whether writing `path` succeeds.  Awaited writes
(`await fs.writeFile ...`) that fail abort the surrounding flow; the
per-rule writes of `generateDTS` are started by `pkg.rules.map(async ...)`
WITHOUT awaiting the produced promises (update.ts:266-309), so their
failures never reach the sequential flow — they only become unhandled
promise rejections after the flow has moved on. -/

/-- One observable event of the pipeline: entering a writer stage, an
awaited write attempt, or a fire-and-forget (background) write attempt. -/
inductive Ev where
  | stage (stageName pkgName : String)
  | write (path : String) (ok : Bool)
  | bgWrite (path : String) (ok : Bool)
deriving DecidableEq, Repr

/-- Sequence two traced steps: the second runs only when the first
succeeded. -/
def andThenTr (r : Bool × List Ev) (next : Unit → Bool × List Ev) : Bool × List Ev :=
  if r.1 then
    let n := next ()
    (n.1, r.2 ++ n.2)
  else r

/-- update.ts:134-158 — `writeRulesIndex`: skip for zero rules, else one
awaited write of `rules/index.ts`. -/
def writeRulesIndexTr (fs : String → Bool) (pkg : PackageInfo) : Bool × List Ev :=
  if pkg.rules.isEmpty then (true, [.stage "writeRulesIndex" pkg.name])
  else
    let p := pkg.path ++ "/rules/index.ts"
    (fs p, [.stage "writeRulesIndex" pkg.name, .write p (fs p)])

/-- update.ts:244-261 — `writeREADME`: skip for zero rules, else one
awaited write of `rules.md`. -/
def writeREADMETr (fs : String → Bool) (pkg : PackageInfo) : Bool × List Ev :=
  if pkg.rules.isEmpty then (true, [.stage "writeREADME" pkg.name])
  else
    let p := pkg.path ++ "/rules.md"
    (fs p, [.stage "writeREADME" pkg.name, .write p (fs p)])

/-- update.ts:263-310 — `generateDTS` starts one `types.d.ts` write per
rule but never awaits them, so the step reports success regardless of the
write outcomes (first component `true` unconditionally). -/
def generateDTSTr (fs : String → Bool) (pkg : PackageInfo) : Bool × List Ev :=
  (true, .stage "generateDTS" pkg.name ::
    pkg.rules.map fun r =>
      .bgWrite (pkg.path ++ "/rules/" ++ r.name ++ "/types.d.ts")
        (fs (pkg.path ++ "/rules/" ++ r.name ++ "/types.d.ts")))

/-- update.ts:160-218 — `writePackageDTS`: skip for zero rules, else two
awaited writes in sequence (`dts/rule-options.d.ts`, then
`dts/define-config-support.d.ts`). -/
def writePackageDTSTr (fs : String → Bool) (pkg : PackageInfo) : Bool × List Ev :=
  if pkg.rules.isEmpty then (true, [.stage "writePackageDTS" pkg.name])
  else
    let p1 := pkg.path ++ "/dts/rule-options.d.ts"
    if fs p1 then
      let p2 := pkg.path ++ "/dts/define-config-support.d.ts"
      (fs p2, [.stage "writePackageDTS" pkg.name, .write p1 true, .write p2 (fs p2)])
    else (false, [.stage "writePackageDTS" pkg.name, .write p1 false])

/-- update.ts:220-242 — `updateExports`: skip for zero rules, else one
awaited write of the rewritten `package.json`. -/
def updateExportsTr (fs : String → Bool) (pkg : PackageInfo) : Bool × List Ev :=
  if pkg.rules.isEmpty then (true, [.stage "updateExports" pkg.name])
  else
    let p := pkg.path ++ "/package.json"
    (fs p, [.stage "updateExports" pkg.name, .write p (fs p)])

/-- update.ts:34-39 — the five per-package stages in their awaited
order. -/
def processPackageTr (fs : String → Bool) (pkg : PackageInfo) : Bool × List Ev :=
  andThenTr (writeRulesIndexTr fs pkg) fun _ =>
    andThenTr (writeREADMETr fs pkg) fun _ =>
      andThenTr (generateDTSTr fs pkg) fun _ =>
        andThenTr (writePackageDTSTr fs pkg) fun _ =>
          updateExportsTr fs pkg

/-- update.ts:33-41 and 64-74 — process every package in order, then write
the global metadata module. -/
def runTr (fs : String → Bool) : List PackageInfo → Bool × List Ev
  | [] =>
    let p := "packages/metadata/src/metadata.ts"
    (fs p, [.stage "writeMetadata" "", .write p (fs p)])
  | pkg :: rest => andThenTr (processPackageTr fs pkg) fun _ => runTr fs rest

/-! ## Helper lemmas: the string order and sorting -/

theorem charListLe_total : ∀ a b : List Char, charListLe a b = true ∨ charListLe b a = true
  | [], _ => Or.inl rfl
  | _ :: _, [] => Or.inr rfl
  | a :: as, b :: bs => by
    by_cases hab : a.toNat < b.toNat
    · left; simp [charListLe, hab]
    · by_cases hba : b.toNat < a.toNat
      · right; simp [charListLe, hba]
      · rcases charListLe_total as bs with h | h
        · left; simp [charListLe, hab, hba, h]
        · right; simp [charListLe, hab, hba, h]

theorem charListLe_trans : ∀ a b c : List Char,
    charListLe a b = true → charListLe b c = true → charListLe a c = true
  | [], _, _, _, _ => rfl
  | _ :: _, [], _, h1, _ => by simp [charListLe] at h1
  | _ :: _, _ :: _, [], _, h2 => by simp [charListLe] at h2
  | a :: as, b :: bs, c :: cs, h1, h2 => by
    simp only [charListLe] at h1 h2 ⊢
    split_ifs at h1 h2 ⊢ <;> first
      | rfl
      | omega
      | (exact charListLe_trans as bs cs h1 h2)

theorem strLe_total (a b : String) : strLe a b = true ∨ strLe b a = true :=
  charListLe_total a.data b.data

theorem strLe_trans {a b c : String} (h1 : strLe a b = true) (h2 : strLe b c = true) :
    strLe a c = true :=
  charListLe_trans a.data b.data c.data h1 h2

theorem charListLe_append_left : ∀ p x y : List Char,
    charListLe (p ++ x) (p ++ y) = charListLe x y
  | [], _, _ => rfl
  | c :: p, x, y => by
    simp [charListLe, charListLe_append_left p x y]

theorem strLe_append_left (p x y : String) : strLe (p ++ x) (p ++ y) = strLe x y := by
  simp only [strLe, String.data_append]
  exact charListLe_append_left p.data x.data y.data

theorem insertByKey_perm (key : α → String) (a : α) :
    ∀ l : List α, (insertByKey key a l).Perm (a :: l)
  | [] => List.Perm.refl _
  | x :: xs => by
    simp only [insertByKey]
    by_cases h : strLe (key a) (key x)
    · rw [if_pos h]
    · rw [if_neg h]
      exact ((insertByKey_perm key a xs).cons x).trans (List.Perm.swap a x xs)

theorem mem_insertByKey (key : α → String) (a y : α) (l : List α) :
    y ∈ insertByKey key a l ↔ y = a ∨ y ∈ l := by
  rw [(insertByKey_perm key a l).mem_iff]
  simp

theorem sortByKey_perm (key : α → String) : ∀ l : List α, (sortByKey key l).Perm l
  | [] => List.Perm.refl _
  | x :: xs => by
    simp only [sortByKey, List.foldr_cons]
    exact (insertByKey_perm key x _).trans (((sortByKey_perm key xs)).cons x)

theorem pairwise_insertByKey (key : α → String) (a : α) :
    ∀ l : List α, l.Pairwise (fun x y => strLe (key x) (key y) = true) →
      (insertByKey key a l).Pairwise (fun x y => strLe (key x) (key y) = true)
  | [], _ => by simp [insertByKey]
  | x :: xs, h => by
    rcases List.pairwise_cons.mp h with ⟨hx, hxs⟩
    by_cases hax : strLe (key a) (key x)
    · simp only [insertByKey, hax, if_pos]
      refine List.pairwise_cons.mpr ⟨?_, h⟩
      intro y hy
      rcases List.mem_cons.mp hy with rfl | hy
      · exact hax
      · exact strLe_trans hax (hx y hy)
    · simp only [insertByKey, hax, if_neg, Bool.false_eq_true, not_false_iff]
      refine List.pairwise_cons.mpr ⟨?_, pairwise_insertByKey key a xs hxs⟩
      intro y hy
      rcases (mem_insertByKey key a y xs).mp hy with rfl | hy
      · rcases strLe_total (key x) (key y) with htot | htot
        · exact htot
        · exact absurd htot (by simpa using hax)
      · exact hx y hy

theorem sortByKey_pairwise (key : α → String) :
    ∀ l : List α, (sortByKey key l).Pairwise (fun x y => strLe (key x) (key y) = true)
  | [] => List.Pairwise.nil
  | x :: xs => pairwise_insertByKey key x _ (sortByKey_pairwise key xs)

/-! ## Helper lemmas: loadAll and readPackage -/

theorem loadAll_ok_of_all (path pkgId shortId : String) :
    ∀ l : List RuleDirInput, (∀ rd ∈ l, entryOk rd = true) →
      loadAll path pkgId shortId l = .ok (l.map (ruleInfoOf path pkgId shortId))
  | [], _ => rfl
  | rd :: l, h => by
    have hrd : entryOk rd = true := h rd (List.mem_cons_self rd l)
    have hrest := loadAll_ok_of_all path pkgId shortId l
      (fun x hx => h x (List.mem_cons_of_mem rd hx))
    simp only [loadAll, loadRule, hrd, if_true, hrest, List.map_cons]
    rfl

theorem loadAll_all_of_ok (path pkgId shortId : String) :
    ∀ (l : List RuleDirInput) (rs : List RuleInfo),
      loadAll path pkgId shortId l = .ok rs → ∀ rd ∈ l, entryOk rd = true
  | [], _, _, rd, hmem => absurd hmem (List.not_mem_nil rd)
  | rd0 :: l, rs, h, rd, hmem => by
    by_cases h0 : entryOk rd0
    · rcases hrec : loadAll path pkgId shortId l with e | rs'
      · rw [loadAll, loadRule, if_pos h0, hrec] at h
        exact Except.noConfusion h
      · rcases List.mem_cons.mp hmem with rfl | hmem
        · exact h0
        · exact loadAll_all_of_ok path pkgId shortId l rs' hrec rd hmem
    · rw [loadAll, loadRule, if_neg h0] at h
      exact Except.noConfusion h

theorem loadAll_ok_shape (path pkgId shortId : String) (l : List RuleDirInput)
    (rs : List RuleInfo) (h : loadAll path pkgId shortId l = .ok rs) :
    rs = l.map (ruleInfoOf path pkgId shortId) := by
  have hall := loadAll_all_of_ok path pkgId shortId l rs h
  have := loadAll_ok_of_all path pkgId shortId l hall
  rw [this] at h
  exact (Except.ok.inj h).symm

theorem readPackage_ok_of_all (inp : PackageInput)
    (h : ∀ rd ∈ sortRuleDirs inp.ruleDirs, entryOk rd = true) :
    readPackage inp = .ok
      { name := inp.pkgJsonName
        shortId := shortIdOf (pkgIdOf inp.dir)
        pkgId := pkgIdOf inp.dir
        path := "packages/" ++ inp.dir
        rules := (sortRuleDirs inp.ruleDirs).map
          (ruleInfoOf ("packages/" ++ inp.dir) (pkgIdOf inp.dir)
            (shortIdOf (pkgIdOf inp.dir))) } := by
  rw [readPackage, loadAll_ok_of_all _ _ _ _ h]
  rfl

theorem readPackage_ok_inv (inp : PackageInput) (pkg : PackageInfo)
    (h : readPackage inp = .ok pkg) :
    (∀ rd ∈ sortRuleDirs inp.ruleDirs, entryOk rd = true) ∧
      pkg =
        { name := inp.pkgJsonName
          shortId := shortIdOf (pkgIdOf inp.dir)
          pkgId := pkgIdOf inp.dir
          path := "packages/" ++ inp.dir
          rules := (sortRuleDirs inp.ruleDirs).map
            (ruleInfoOf ("packages/" ++ inp.dir) (pkgIdOf inp.dir)
              (shortIdOf (pkgIdOf inp.dir))) } := by
  rcases hload : loadAll ("packages/" ++ inp.dir) (pkgIdOf inp.dir)
      (shortIdOf (pkgIdOf inp.dir)) (sortRuleDirs inp.ruleDirs) with e | rs
  · rw [readPackage, hload] at h
    exact absurd h (by simp [Except.map])
  · have hall := loadAll_all_of_ok _ _ _ _ _ hload
    have hshape := loadAll_ok_shape _ _ _ _ _ hload
    rw [readPackage, hload] at h
    simp only [Except.map, Except.ok.injEq] at h
    refine ⟨hall, ?_⟩
    rw [← h, hshape]

/-- Completion-order model of `Promise.all` (update.ts:90-123): `n`
per-rule loads run concurrently; the load of slot `i` computes `f i`, the
loads complete in the order given by `order`, and each completion stores
its result at its own index of a positionally-indexed structure, which is
read out in index order at the end. -/
def collectIndexed (n : Nat) (f : Nat → α) (d : α) (order : List Nat) : List α :=
  order.foldl (fun acc i => acc.set i (f i)) (List.replicate n d)

/-! ## Helper lemmas: the Promise.all completion-order model -/

theorem foldlSet_length (f : Nat → α) :
    ∀ (order : List Nat) (acc : List α),
      (order.foldl (fun acc i => acc.set i (f i)) acc).length = acc.length
  | [], _ => rfl
  | i :: order, acc => by
    rw [List.foldl_cons, foldlSet_length f order, List.length_set]

theorem foldlSet_getElem? (f : Nat → α) :
    ∀ (order : List Nat) (acc : List α) (j : Nat),
      (order.foldl (fun acc i => acc.set i (f i)) acc)[j]? =
        if j ∈ order ∧ j < acc.length then some (f j) else acc[j]?
  | [], acc, j => by simp
  | i :: order, acc, j => by
    rw [List.foldl_cons, foldlSet_getElem? f order, List.length_set]
    by_cases hmem : j ∈ order
    · by_cases hlt : j < acc.length
      · simp [hmem, hlt]
      · simp only [hmem, hlt, and_false, and_true, if_false, List.mem_cons,
          or_true, true_and]
        rw [List.getElem?_eq_none (l := acc.set i (f i)) (by rw [List.length_set]; omega),
          List.getElem?_eq_none (l := acc) (by omega)]
    · by_cases hij : j = i
      · subst hij
        by_cases hlt : j < acc.length
        · simp [hmem, hlt, List.getElem?_set_eq_of_lt]
        · simp only [hmem, hlt, and_false, false_and, if_false, List.mem_cons,
            true_or, true_and, false_or]
          rw [List.set_eq_of_length_le (by omega)]
      · simp only [hmem, List.mem_cons, hij, false_or, false_and, if_false]
        rw [List.getElem?_set_ne (fun h => hij h.symm)]

theorem collectIndexed_length (n : Nat) (f : Nat → α) (d : α) (order : List Nat) :
    (collectIndexed n f d order).length = n := by
  rw [collectIndexed, foldlSet_length, List.length_replicate]

theorem collectIndexed_eq_map (n : Nat) (f : Nat → α) (d : α) (order : List Nat)
    (hcover : ∀ j < n, j ∈ order) :
    collectIndexed n f d order = (List.range n).map f := by
  apply List.ext_getElem?
  intro j
  rw [collectIndexed, foldlSet_getElem?, List.length_replicate]
  by_cases hlt : j < n
  · simp [hcover j hlt, hlt]
  · simp only [hlt, and_false, if_false]
    rw [List.getElem?_eq_none (l := List.replicate n d) (by simp; omega),
      List.getElem?_eq_none (by simp [List.length_range]; omega)]

/-- Reading a list through `getD` at the indices `0 … length-1` is mapping
over the list itself. -/
theorem map_getD_range (g : β → α) (d : β) :
    ∀ l : List β, (List.range l.length).map (fun i => g (l.getD i d)) = l.map g
  | [] => rfl
  | x :: xs => by
    rw [List.length_cons, List.range_succ_eq_map, List.map_cons, List.map_map,
      List.map_cons]
    refine congrArg (g x :: ·) ?_
    have := map_getD_range g d xs
    rw [← this]
    rfl

/-! ## Helper lemmas: deduplication -/

theorem mem_dedupAux (x : String) :
    ∀ (l seen : List String), x ∈ dedupAux seen l ↔ x ∈ l ∧ x ∉ seen
  | [], seen => by simp [dedupAux]
  | y :: l, seen => by
    by_cases hy : y ∈ seen
    · rw [dedupAux, if_pos hy, mem_dedupAux x l seen]
      simp only [List.mem_cons]
      constructor
      · rintro ⟨h1, h2⟩
        exact ⟨Or.inr h1, h2⟩
      · rintro ⟨h1 | h1, h2⟩
        · subst h1; exact absurd hy h2
        · exact ⟨h1, h2⟩
    · rw [dedupAux, if_neg hy]
      simp only [List.mem_cons, mem_dedupAux x l (y :: seen)]
      constructor
      · rintro (rfl | ⟨h1, h2⟩)
        · exact ⟨Or.inl rfl, hy⟩
        · exact ⟨Or.inr h1, fun hc => h2 (Or.inr hc)⟩
      · rintro ⟨h1 | h1, h2⟩
        · exact Or.inl h1
        · by_cases hxy : x = y
          · exact Or.inl hxy
          · exact Or.inr ⟨h1, fun hc => hc.elim hxy h2⟩

theorem dedupAux_nodup : ∀ l seen : List String, (dedupAux seen l).Nodup
  | [], seen => by simp [dedupAux]
  | y :: l, seen => by
    by_cases hy : y ∈ seen
    · rw [dedupAux, if_pos hy]
      exact dedupAux_nodup l seen
    · rw [dedupAux, if_neg hy]
      refine List.nodup_cons.mpr ⟨?_, dedupAux_nodup l (y :: seen)⟩
      intro hmem
      exact ((mem_dedupAux y l (y :: seen)).mp hmem).2 (List.mem_cons_self y seen)

theorem dedupAux_congr : ∀ (l s1 s2 : List String), (∀ x, x ∈ s1 ↔ x ∈ s2) →
    dedupAux s1 l = dedupAux s2 l
  | [], _, _, _ => rfl
  | y :: l, s1, s2, h => by
    by_cases hy : y ∈ s1
    · rw [dedupAux, if_pos hy, dedupAux, if_pos ((h y).mp hy),
        dedupAux_congr l s1 s2 h]
    · rw [dedupAux, if_neg hy, dedupAux, if_neg (fun c => hy ((h y).mpr c)),
        dedupAux_congr l (y :: s1) (y :: s2)
          (fun x => by simp only [List.mem_cons, h x])]

theorem dedupAux_append : ∀ (l1 l2 seen : List String),
    dedupAux seen (l1 ++ l2) = dedupAux seen l1 ++ dedupAux (l1 ++ seen) l2
  | [], l2, seen => by simp [dedupAux]
  | y :: l1, l2, seen => by
    by_cases hy : y ∈ seen
    · rw [List.cons_append, dedupAux, if_pos hy, dedupAux, if_pos hy,
        dedupAux_append l1 l2 seen,
        dedupAux_congr l2 (l1 ++ seen) (y :: (l1 ++ seen))
          (fun x => by
            simp only [List.mem_append, List.mem_cons]
            constructor
            · intro h
              exact Or.inr h
            · rintro (rfl | h)
              · exact Or.inr hy
              · exact h)]
      rfl
    · rw [List.cons_append, dedupAux, if_neg hy, dedupAux, if_neg hy,
        dedupAux_append l1 l2 (y :: seen),
        dedupAux_congr l2 (l1 ++ y :: seen) (y :: (l1 ++ seen))
          (fun x => by
            simp only [List.mem_append, List.mem_cons]
            tauto)]
      rfl

theorem dedupAux_filter : ∀ (l extra seen : List String),
    dedupAux (extra ++ seen) l =
      dedupAux seen (l.filter fun x => decide (x ∉ extra))
  | [], _, _ => rfl
  | y :: l, extra, seen => by
    rw [List.filter_cons]
    by_cases hex : y ∈ extra
    · have hdec : (decide (y ∉ extra) : Bool) = false := by simp [hex]
      rw [hdec, dedupAux, if_pos (List.mem_append.mpr (Or.inl hex))]
      simp only [Bool.false_eq_true, if_false]
      exact dedupAux_filter l extra seen
    · have hdec : (decide (y ∉ extra) : Bool) = true := by simp [hex]
      rw [hdec]
      simp only [if_true]
      by_cases hseen : y ∈ seen
      · rw [dedupAux, if_pos (List.mem_append.mpr (Or.inr hseen)),
          dedupAux, if_pos hseen]
        exact dedupAux_filter l extra seen
      · rw [dedupAux,
          if_neg (fun hc => (List.mem_append.mp hc).elim hex hseen),
          dedupAux, if_neg hseen]
        rw [dedupAux_congr l (y :: (extra ++ seen)) (extra ++ y :: seen)
          (fun x => by
            simp only [List.mem_append, List.mem_cons]
            tauto)]
        rw [dedupAux_filter l extra (y :: seen)]

theorem mem_dedupNames (x : String) (l : List String) :
    x ∈ dedupNames l ↔ x ∈ l := by
  rw [dedupNames, mem_dedupAux]
  simp

theorem dedupNames_nodup (l : List String) : (dedupNames l).Nodup :=
  dedupAux_nodup l []

theorem dedupNames_decomp (a b c : List String) :
    dedupNames (a ++ b ++ c) =
      dedupNames a
        ++ dedupNames (b.filter fun x => decide (x ∉ a))
        ++ dedupNames (c.filter fun x => decide (x ∉ a) && decide (x ∉ b)) := by
  rw [dedupNames, dedupAux_append (a ++ b) c [], dedupAux_append a b []]
  rw [dedupAux_congr b (a ++ []) a (fun x => by simp),
    dedupAux_congr c ((a ++ b) ++ []) (a ++ b) (fun x => by simp)]
  have hb : dedupAux a b = dedupAux [] (b.filter fun x => decide (x ∉ a)) := by
    have := dedupAux_filter b a []
    rwa [List.append_nil] at this
  have hc : dedupAux (a ++ b) c =
      dedupAux [] (c.filter fun x => decide (x ∉ a) && decide (x ∉ b)) := by
    have h1 := dedupAux_filter c (a ++ b) []
    rw [List.append_nil] at h1
    rw [h1]
    have h2 : ∀ x ∈ c, (decide (x ∉ a ++ b) : Bool) =
        (decide (x ∉ a) && decide (x ∉ b)) := by
      intro x _
      by_cases hxa : x ∈ a <;> by_cases hxb : x ∈ b <;>
        simp [hxa, hxb, List.mem_append]
    rw [List.filter_congr h2]
  rw [hb, hc]
  rfl

/-! ## Helper lemmas: pickRule, mergedRules, updateFirst -/

theorem pickRule_js {pJs pTs pJsx : PackageInfo} {n : String} {r : RuleInfo}
    (hjs : pJs.rules.find? (·.name = n) = some r) :
    pickRule pJs pTs pJsx n = some r := by
  rw [pickRule, hjs]
  rfl

theorem pickRule_ts {pJs pTs pJsx : PackageInfo} {n : String} {r : RuleInfo}
    (hjs : n ∉ pJs.rules.map (·.name))
    (hts : pTs.rules.find? (·.name = n) = some r) :
    pickRule pJs pTs pJsx n = some r := by
  have hfind : pJs.rules.find? (·.name = n) = none := by
    rw [List.find?_eq_none]
    intro a ha
    simp only [decide_eq_true_eq]
    exact fun hc => hjs (List.mem_map.mpr ⟨a, ha, hc⟩)
  rw [pickRule, hfind, hts]
  rfl

theorem pickRule_jsx {pJs pTs pJsx : PackageInfo} {n : String} {r : RuleInfo}
    (hjs : n ∉ pJs.rules.map (·.name)) (hts : n ∉ pTs.rules.map (·.name))
    (hjsx : pJsx.rules.find? (·.name = n) = some r) :
    pickRule pJs pTs pJsx n = some r := by
  have hfindJs : pJs.rules.find? (·.name = n) = none := by
    rw [List.find?_eq_none]
    intro a ha
    simp only [decide_eq_true_eq]
    exact fun hc => hjs (List.mem_map.mpr ⟨a, ha, hc⟩)
  have hfindTs : pTs.rules.find? (·.name = n) = none := by
    rw [List.find?_eq_none]
    intro a ha
    simp only [decide_eq_true_eq]
    exact fun hc => hts (List.mem_map.mpr ⟨a, ha, hc⟩)
  rw [pickRule, hfindJs, hfindTs, hjsx]
  rfl

theorem pickRule_of_mem (pJs pTs pJsx : PackageInfo) (n : String)
    (h : n ∈ pJs.rules.map (·.name) ∨ n ∈ pTs.rules.map (·.name)
      ∨ n ∈ pJsx.rules.map (·.name)) :
    ∃ rule, pickRule pJs pTs pJsx n = some rule ∧ rule.name = n := by
  by_cases hjs : n ∈ pJs.rules.map (·.name)
  · rcases List.mem_map.mp hjs with ⟨r0, hr0, hname⟩
    have hsome : (pJs.rules.find? (·.name = n)).isSome := by
      rw [List.find?_isSome]
      exact ⟨r0, hr0, by simp [hname]⟩
    rcases hfind : pJs.rules.find? (·.name = n) with _ | r
    · rw [hfind] at hsome; simp at hsome
    · have hp := List.find?_some hfind
      simp only [decide_eq_true_eq] at hp
      exact ⟨r, pickRule_js hfind, hp⟩
  · by_cases hts : n ∈ pTs.rules.map (·.name)
    · rcases List.mem_map.mp hts with ⟨r0, hr0, hname⟩
      have hsome : (pTs.rules.find? (·.name = n)).isSome := by
        rw [List.find?_isSome]
        exact ⟨r0, hr0, by simp [hname]⟩
      rcases hfind : pTs.rules.find? (·.name = n) with _ | r
      · rw [hfind] at hsome; simp at hsome
      · have hp := List.find?_some hfind
        simp only [decide_eq_true_eq] at hp
        exact ⟨r, pickRule_ts hjs hfind, hp⟩
    · have hjsx : n ∈ pJsx.rules.map (·.name) := by tauto
      rcases List.mem_map.mp hjsx with ⟨r0, hr0, hname⟩
      have hsome : (pJsx.rules.find? (·.name = n)).isSome := by
        rw [List.find?_isSome]
        exact ⟨r0, hr0, by simp [hname]⟩
      rcases hfind : pJsx.rules.find? (·.name = n) with _ | r
      · rw [hfind] at hsome; simp at hsome
      · have hp := List.find?_some hfind
        simp only [decide_eq_true_eq] at hp
        exact ⟨r, pickRule_jsx hjs hts hfind, hp⟩

theorem mem_mergedRules_char (pJs pTs pJsx : PackageInfo) (r : RuleInfo)
    (hr : r ∈ mergedRules pJs pTs pJsx) :
    ∃ n rule, pickRule pJs pTs pJsx n = some rule ∧ rule.name = n ∧
      r = { rule with ruleId := "@stylistic/" ++ n, originalId := none } := by
  rcases List.mem_map.mp hr with ⟨n, hn, hbuild⟩
  have hmem3 : n ∈ pJs.rules.map (·.name) ∨ n ∈ pTs.rules.map (·.name)
      ∨ n ∈ pJsx.rules.map (·.name) := by
    have := (mem_dedupNames n _).mp hn
    simp only [List.mem_append] at this
    tauto
  obtain ⟨rule, hpick, hname⟩ := pickRule_of_mem pJs pTs pJsx n hmem3
  refine ⟨n, rule, hpick, hname, ?_⟩
  rw [← hbuild]
  simp only [hpick]

theorem mergedRules_names (pJs pTs pJsx : PackageInfo) :
    (mergedRules pJs pTs pJsx).map (·.name) =
      dedupNames (pJs.rules.map (·.name) ++ pTs.rules.map (·.name)
        ++ pJsx.rules.map (·.name)) := by
  rw [mergedRules, List.map_map]
  conv_rhs => rw [← List.map_id (dedupNames (pJs.rules.map (·.name)
    ++ pTs.rules.map (·.name) ++ pJsx.rules.map (·.name)))]
  apply List.map_congr_left
  intro n hn
  have hmem3 : n ∈ pJs.rules.map (·.name) ∨ n ∈ pTs.rules.map (·.name)
      ∨ n ∈ pJsx.rules.map (·.name) := by
    have := (mem_dedupNames n _).mp hn
    simp only [List.mem_append] at this
    tauto
  obtain ⟨rule, hpick, hname⟩ := pickRule_of_mem pJs pTs pJsx n hmem3
  simp only [Function.comp_apply, hpick, id_eq]
  exact hname

theorem mem_updateFirst_of_not (p : α → Bool) (f : α → α) :
    ∀ l : List α, ∀ a ∈ l, p a = false → a ∈ updateFirst p f l
  | [], a, ha, _ => absurd ha (List.not_mem_nil a)
  | x :: xs, a, ha, hpa => by
    by_cases hx : p x = true
    · rw [updateFirst, if_pos hx]
      rcases List.mem_cons.mp ha with rfl | ha
      · rw [hpa] at hx; exact absurd hx (by simp)
      · exact List.mem_cons_of_mem _ ha
    · rw [updateFirst, if_neg hx]
      rcases List.mem_cons.mp ha with rfl | ha
      · exact List.mem_cons_self a _
      · exact List.mem_cons_of_mem _ (mem_updateFirst_of_not p f xs a ha hpa)

/-! ## Helper lemmas: the schema compiler loop -/

theorem compileEntry_ok {compile : String → Nat → Except String String}
    {s t : String} {i : Nat} (r : String)
    (h : compile (normalizeSchema s) i = .ok t) :
    compileEntry compile r i s = (t, []) := by
  rw [compileEntry, h]

theorem compileEntry_error {compile : String → Nat → Except String String}
    {s e : String} {i : Nat} (r : String)
    (h : compile (normalizeSchema s) i = .error e) :
    compileEntry compile r i s =
      ("export type Schema" ++ toString i ++ " = unknown\n",
        ["Failed to compile schema Schema" ++ toString i ++ " for rule " ++ r
          ++ ". Falling back to unknown."]) := by
  rw [compileEntry, h]

theorem compileOptionsFrom_length (compile : String → Nat → Except String String)
    (r : String) :
    ∀ (l : List String) (i0 : Nat),
      (compileOptionsFrom compile r i0 l).1.length = l.length
  | [], _ => rfl
  | _ :: l, i0 => by
    rw [compileOptionsFrom, List.length_cons, List.length_cons,
      compileOptionsFrom_length compile r l (i0 + 1)]

theorem compileOptionsFrom_fst_getElem (compile : String → Nat → Except String String)
    (r : String) :
    ∀ (l : List String) (i0 k : Nat), k < l.length →
      (compileOptionsFrom compile r i0 l).1[k]? =
        some (compileEntry compile r (i0 + k) (l.getD k "")).1
  | [], _, k, hk => absurd hk (by simp)
  | s :: l, i0, 0, _ => by
    simp [compileOptionsFrom]
  | s :: l, i0, k + 1, hk => by
    rw [compileOptionsFrom]
    have harith : i0 + 1 + k = i0 + (k + 1) := by omega
    have := compileOptionsFrom_fst_getElem compile r l (i0 + 1) k (by simpa using hk)
    rw [harith] at this
    simpa using this

theorem compileOptionsFrom_warn_mem (compile : String → Nat → Except String String)
    (r : String) :
    ∀ (l : List String) (i0 k : Nat) (e : String), k < l.length →
      compile (normalizeSchema (l.getD k "")) (i0 + k) = .error e →
      ("Failed to compile schema Schema" ++ toString (i0 + k) ++ " for rule "
        ++ r ++ ". Falling back to unknown.")
        ∈ (compileOptionsFrom compile r i0 l).2
  | [], _, k, _, hk, _ => absurd hk (by simp)
  | s :: l, i0, 0, e, _, hfail => by
    rw [compileOptionsFrom]
    apply List.mem_append.mpr
    left
    have hfail2 : compile (normalizeSchema s) i0 = .error e := by simpa using hfail
    rw [Nat.add_zero, compileEntry_error r hfail2]
    exact List.mem_singleton.mpr rfl
  | s :: l, i0, k + 1, e, hk, hfail => by
    rw [compileOptionsFrom]
    apply List.mem_append.mpr
    right
    have harith : i0 + 1 + k = i0 + (k + 1) := by omega
    have := compileOptionsFrom_warn_mem compile r l (i0 + 1) k e
      (by simpa using hk) (by rw [harith]; simpa using hfail)
    rwa [harith] at this

theorem compileOptionsFrom_congr (r : String) :
    ∀ (l : List String) (i0 : Nat)
      (compile1 compile2 : String → Nat → Except String String),
      (∀ k, k < l.length →
        compile1 (normalizeSchema (l.getD k "")) (i0 + k) =
          compile2 (normalizeSchema (l.getD k "")) (i0 + k)) →
      compileOptionsFrom compile1 r i0 l = compileOptionsFrom compile2 r i0 l
  | [], _, _, _, _ => rfl
  | s :: l, i0, compile1, compile2, h => by
    have h0 : compile1 (normalizeSchema s) i0 = compile2 (normalizeSchema s) i0 := by
      simpa using h 0 (by simp)
    have hce : compileEntry compile1 r i0 s = compileEntry compile2 r i0 s := by
      rw [compileEntry, compileEntry, h0]
    have hrest := compileOptionsFrom_congr r l (i0 + 1) compile1 compile2
      (fun k hk => by
        have harith : i0 + 1 + k = i0 + (k + 1) := by omega
        have := h (k + 1) (by simpa using hk)
        rw [harith]
        simpa using this)
    rw [compileOptionsFrom, compileOptionsFrom, hce, hrest]

/-! ## Helper lemmas: the generated text -/

theorem joinSep_ne_empty (sep a : String) (rest : List String)
    (ha : a.data ≠ []) : joinSep sep (a :: rest) ≠ "" := by
  cases rest with
  | nil =>
    intro hc
    rw [joinSep] at hc
    exact ha (by rw [hc])
  | cons y xs =>
    intro hc
    rw [joinSep] at hc
    have hdata : (a ++ sep ++ joinSep sep (y :: xs)).data = [] := by
      rw [hc]
    rw [String.data_append, String.data_append] at hdata
    rcases List.append_eq_nil.mp hdata with ⟨h1, _⟩
    rcases List.append_eq_nil.mp h1 with ⟨h2, _⟩
    exact ha h2

theorem quoted_data_ne_nil (x : String) : (sq ++ x ++ sq).data ≠ [] := by
  rw [String.data_append, String.data_append]
  intro hc
  rcases List.append_eq_nil.mp hc with ⟨h1, _⟩
  rcases List.append_eq_nil.mp h1 with ⟨h2, _⟩
  exact List.cons_ne_nil _ _ h2

theorem messageIdsType_nil : messageIdsType [] = "never" := rfl

theorem messageIdsType_ne_nil (ids : List String) (h : ids ≠ []) :
    messageIdsType ids = joinSep " | " (ids.map fun i => sq ++ i ++ sq) := by
  rcases ids with _ | ⟨x, xs⟩
  · exact absurd rfl h
  · rw [messageIdsType]
    simp only [List.map_cons]
    rw [if_neg (joinSep_ne_empty " | " (sq ++ x ++ sq)
      (xs.map fun i => sq ++ i ++ sq) (quoted_data_ne_nil x))]

theorem runMetadata_ok_inv (inputs : List PackageInput) (m : MetadataOut)
    (h : runMetadata inputs = .ok m) :
    ∃ ps merged, readAll inputs = .ok ps ∧ mergeStep ps = .ok merged ∧
      m = { packages := merged, rules := merged.flatMap (·.rules) } := by
  rcases h1 : readAll inputs with e | ps
  · rw [runMetadata, h1] at h
    exact Except.noConfusion h
  · rcases h2 : mergeStep ps with e | merged
    · rw [runMetadata, h1] at h
      simp only [h2] at h
      exact Except.noConfusion h
    · rw [runMetadata, h1] at h
      simp only [h2, Except.ok.injEq] at h
      exact ⟨ps, merged, rfl, h2, h.symm⟩

/-! ## Concrete inputs, used by the witness and counterexample theorems

A small but representative instance of the repository's layout: the three
source packages `eslint-plugin-js` / `eslint-plugin-ts` /
`eslint-plugin-jsx`, the general package `eslint-plugin` (package name
`@stylistic/eslint-plugin`), and the `metadata` package, which also
matches the `packages/*/package.json` glob and sorts after
`eslint-plugin`. -/

/-- A sample `meta` descriptor for a rule module. -/
def metaIndent : ModMeta :=
  { fixable := some "whitespace"
    docs := some { description := some "Enforce consistent indentation"
                   recommended := some true }
    messages := some ["wrongIndentation"]
    schema := some (.arr ["schemaA", "schemaB"]) }

/-- A sample rule module carrying `metaIndent`. -/
def modIndent : RuleModule := { dflt := some { meta := some metaIndent } }

/-- A rule directory with a TypeScript entry and module `m`. -/
def rdOf (n : String) (m : RuleModule) : RuleDirInput :=
  { name := n, hasTs := true, hasJs := false, modul := m }

/-- The placeholder rule directory used for out-of-range indexed reads. -/
def emptyRuleDir : RuleDirInput :=
  { name := "", hasTs := false, hasJs := false, modul := { dflt := none } }

def inpJs : PackageInput :=
  { dir := "eslint-plugin-js", pkgJsonName := "@stylistic/eslint-plugin-js"
    ruleDirs := [rdOf "quotes" modIndent, rdOf "indent" modIndent] }

def inpTs : PackageInput :=
  { dir := "eslint-plugin-ts", pkgJsonName := "@stylistic/eslint-plugin-ts"
    ruleDirs := [rdOf "indent" modIndent, rdOf "type-annotation-spacing" modIndent] }

def inpJsx : PackageInput :=
  { dir := "eslint-plugin-jsx", pkgJsonName := "@stylistic/eslint-plugin-jsx"
    ruleDirs := [rdOf "jsx-indent" modIndent, rdOf "quotes" modIndent] }

def inpGeneral : PackageInput :=
  { dir := "eslint-plugin", pkgJsonName := "@stylistic/eslint-plugin"
    ruleDirs := [] }

def inpMetadata : PackageInput :=
  { dir := "metadata", pkgJsonName := "@eslint-stylistic/metadata"
    ruleDirs := [] }

/-- The discovered packages, in raw (unsorted) filesystem order. -/
def exampleInputs : List PackageInput :=
  [inpGeneral, inpMetadata, inpJs, inpJsx, inpTs]

/-- The `PackageInfo` a successful `readPackage` produces (its `.error`
branch is never taken on the sample inputs). -/
def pkgOf (inp : PackageInput) : PackageInfo :=
  match readPackage inp with
  | .ok p => p
  | .error _ => { name := "", shortId := "", pkgId := "", path := "", rules := [] }

/-- The final package list `run` serializes on the sample inputs. -/
def examplePackages : List PackageInfo :=
  match runMetadata exampleInputs with
  | .ok out => out.packages
  | .error _ => []

/-- The packages `readAll` assembles on the sample inputs (before the
merge mutation). -/
def examplePre : List PackageInfo :=
  match readAll exampleInputs with
  | .ok ps => ps
  | .error _ => []

/-! ## The claims -/

/-- C1 counterexample: on a concrete instance of the repository layout the
run succeeds, yet the final package list violates
`R.ruleId = P.pkgId ++ "/" ++ R.name`: the merged package keeps
`pkgId = "@stylistic/eslint-plugin"` (update.ts never reassigns it) while
its rules get `ruleId = "@stylistic/" ++ name` (update.ts:58). -/
theorem c1_ruleId_counterexample :
    (runMetadata exampleInputs).isOk = true ∧
    ¬ (∀ p ∈ examplePackages, ∀ r ∈ p.rules,
        r.ruleId = p.pkgId ++ "/" ++ r.name) := by
  constructor
  · decide
  · decide

/-- C1 (amended): for every package assembled by `readPackage`, every rule
satisfies `ruleId = pkgId ++ "/" ++ name` (update.ts:102); the rules of the
synthesized merged package instead satisfy
`ruleId = "@stylistic/" ++ name` (update.ts:58), while the merged package
keeps the `pkgId` that `readPackage` derived from its directory, so the
original equation fails on it. -/
theorem c1_ruleId_amended (inp : PackageInput) (pkg : PackageInfo)
    (h : readPackage inp = .ok pkg) (pJs pTs pJsx : PackageInfo) :
    (∀ r ∈ pkg.rules, r.ruleId = pkg.pkgId ++ "/" ++ r.name) ∧
    (∀ r ∈ mergedRules pJs pTs pJsx, r.ruleId = "@stylistic/" ++ r.name) := by
  constructor
  · intro r hr
    rcases readPackage_ok_inv inp pkg h with ⟨_, rfl⟩
    rcases List.mem_map.mp hr with ⟨rd, _, rfl⟩
    rfl
  · intro r hr
    rcases mem_mergedRules_char pJs pTs pJsx r hr with ⟨n, rule, _, hname, rfl⟩
    show "@stylistic/" ++ n = "@stylistic/" ++ rule.name
    rw [hname]

/-- C1 witness: the amended statement evaluated on the sample js/ts/jsx
packages. -/
theorem c1_ruleId_amended_witness :
    (∀ r ∈ (pkgOf inpJs).rules,
      r.ruleId = (pkgOf inpJs).pkgId ++ "/" ++ r.name) ∧
    (∀ r ∈ mergedRules (pkgOf inpJs) (pkgOf inpTs) (pkgOf inpJsx),
      r.ruleId = "@stylistic/" ++ r.name) :=
  c1_ruleId_amended inpJs (pkgOf inpJs) rfl (pkgOf inpJs) (pkgOf inpTs)
    (pkgOf inpJsx)

/-- C2 counterexample: on a concrete instance of the repository layout the
serialized package list is NOT "non-merged packages followed by the merged
package appended": the merged package (the one whose `shortId` became
`default`) sits at its sorted discovery position, with the `metadata`
package after it, and the list has exactly as many entries as there are
discovered packages — no separate record was appended. -/
theorem c2_metadata_counterexample :
    examplePackages.map (·.shortId) = ["js", "jsx", "ts", "default", "metadata"] ∧
    examplePackages.length = exampleInputs.length ∧
    ¬ (examplePackages.getLast?.map (·.shortId) = some "default") := by
  refine ⟨?_, ?_, ?_⟩ <;> decide

/-- C2 (amended): the Global Metadata Writer serializes all discovered
packages in sorted discovery order (inside `Object.freeze`,
update.ts:64-74), where the first discovered package named
`@stylistic/eslint-plugin` has been mutated in place — its `rules`
replaced by the merged rules and its `shortId` set to `default` — rather
than a separate merged record being appended; every other package record
is carried over unchanged, and the serialized `rules` list is the
flattening `packages.flatMap (·.rules)` of the serialized package list. -/
theorem c2_metadata_amended (ps : List PackageInfo)
    (pJs pTs pJsx pGen : PackageInfo)
    (hjs : ps.find? (·.shortId = "js") = some pJs)
    (hts : ps.find? (·.shortId = "ts") = some pTs)
    (hjsx : ps.find? (·.shortId = "jsx") = some pJsx)
    (hgen : ps.find? (·.name = "@stylistic/eslint-plugin") = some pGen) :
    mergeStep ps = .ok (updateFirst (·.name = "@stylistic/eslint-plugin")
      (fun p => { p with rules := mergedRules pJs pTs pJsx
                         shortId := "default" }) ps) ∧
    (∀ q ∈ ps, q.name ≠ "@stylistic/eslint-plugin" →
      q ∈ updateFirst (·.name = "@stylistic/eslint-plugin")
        (fun p => { p with rules := mergedRules pJs pTs pJsx
                           shortId := "default" }) ps) ∧
    (∀ (inputs : List PackageInput) (m : MetadataOut),
      runMetadata inputs = .ok m → m.rules = m.packages.flatMap (·.rules)) := by
  refine ⟨?_, ?_, ?_⟩
  · simp only [mergeStep, hjs, hts, hjsx, hgen]
  · intro q hq hneq
    exact mem_updateFirst_of_not _ _ ps q hq (decide_eq_false hneq)
  · intro inputs m hm
    rcases runMetadata_ok_inv inputs m hm with ⟨ps', merged, _, _, rfl⟩
    rfl

/-- C2 witness: the amended statement evaluated on the sample package
list. -/
theorem c2_metadata_amended_witness :
    mergeStep examplePre = .ok (updateFirst (·.name = "@stylistic/eslint-plugin")
      (fun p => { p with rules := mergedRules (pkgOf inpJs) (pkgOf inpTs) (pkgOf inpJsx)
                         shortId := "default" }) examplePre) ∧
    (∀ q ∈ examplePre, q.name ≠ "@stylistic/eslint-plugin" →
      q ∈ updateFirst (·.name = "@stylistic/eslint-plugin")
        (fun p => { p with rules := mergedRules (pkgOf inpJs) (pkgOf inpTs) (pkgOf inpJsx)
                           shortId := "default" }) examplePre) ∧
    (∀ (inputs : List PackageInput) (m : MetadataOut),
      runMetadata inputs = .ok m → m.rules = m.packages.flatMap (·.rules)) :=
  c2_metadata_amended examplePre (pkgOf inpJs) (pkgOf inpTs) (pkgOf inpJsx)
    (pkgOf inpGeneral) (by decide) (by decide) (by decide) (by decide)

/-- C3: for a rule name present in more than one of the three source
packages, the merged package's entry for that name is the record of the
highest-precedence source package containing it (precedence js, ts, jsx;
update.ts:55), with `ruleId` rewritten to `"@stylistic/" ++ name`
(update.ts:58) and `originalId` cleared (update.ts:59); all its remaining
fields (metadata included) are carried over unchanged by the record
update. -/
theorem c3_merge_precedence (pJs pTs pJsx : PackageInfo) (n : String)
    (hmulti : (n ∈ pJs.rules.map (·.name) ∧ n ∈ pTs.rules.map (·.name)) ∨
      (n ∈ pJs.rules.map (·.name) ∧ n ∈ pJsx.rules.map (·.name)) ∨
      (n ∈ pTs.rules.map (·.name) ∧ n ∈ pJsx.rules.map (·.name))) :
    ∃ chosen,
      (if n ∈ pJs.rules.map (·.name) then
        pJs.rules.find? (·.name = n) = some chosen
      else if n ∈ pTs.rules.map (·.name) then
        pTs.rules.find? (·.name = n) = some chosen
      else pJsx.rules.find? (·.name = n) = some chosen) ∧
      (∃ r ∈ mergedRules pJs pTs pJsx, r.name = n) ∧
      (∀ r ∈ mergedRules pJs pTs pJsx, r.name = n →
        r = { chosen with ruleId := "@stylistic/" ++ n, originalId := none }) := by
  have hmem3 : n ∈ pJs.rules.map (·.name) ∨ n ∈ pTs.rules.map (·.name)
      ∨ n ∈ pJsx.rules.map (·.name) := by tauto
  obtain ⟨rule, hpick, hname⟩ := pickRule_of_mem pJs pTs pJsx n hmem3
  refine ⟨rule, ?_, ?_, ?_⟩
  · by_cases hjs : n ∈ pJs.rules.map (·.name)
    · rw [if_pos hjs]
      rcases hfind : pJs.rules.find? (·.name = n) with _ | r0
      · exfalso
        rw [List.find?_eq_none] at hfind
        rcases List.mem_map.mp hjs with ⟨r1, hr1, hn1⟩
        exact absurd (by simp [hn1]) (hfind r1 hr1)
      · have h2 : pickRule pJs pTs pJsx n = some r0 := pickRule_js hfind
        have hr : rule = r0 := Option.some.inj (hpick.symm.trans h2)
        rw [hfind, hr]
    · rw [if_neg hjs]
      by_cases hts : n ∈ pTs.rules.map (·.name)
      · rw [if_pos hts]
        rcases hfind : pTs.rules.find? (·.name = n) with _ | r0
        · exfalso
          rw [List.find?_eq_none] at hfind
          rcases List.mem_map.mp hts with ⟨r1, hr1, hn1⟩
          exact absurd (by simp [hn1]) (hfind r1 hr1)
        · have h2 : pickRule pJs pTs pJsx n = some r0 := pickRule_ts hjs hfind
          have hr : rule = r0 := Option.some.inj (hpick.symm.trans h2)
          rw [hfind, hr]
      · exfalso
        tauto
  · refine ⟨{ rule with ruleId := "@stylistic/" ++ n, originalId := none }, ?_, hname⟩
    rw [mergedRules]
    apply List.mem_map.mpr
    refine ⟨n, ?_, by simp only [hpick]⟩
    rw [mem_dedupNames]
    simp only [List.mem_append]
    tauto
  · intro r hr hrname
    rcases mem_mergedRules_char pJs pTs pJsx r hr with ⟨n', rule', hpick', hname', rfl⟩
    have hn' : n' = n := by
      have : rule'.name = n' := hname'
      simpa [this] using hrname
    subst hn'
    have hr' : rule = rule' := Option.some.inj (hpick.symm.trans hpick')
    rw [hr']

/-- C3 witness: the precedence statement evaluated at the name `quotes`,
present in the sample js and jsx packages. -/
theorem c3_merge_precedence_witness :
    ∃ chosen,
      (if "quotes" ∈ (pkgOf inpJs).rules.map (·.name) then
        (pkgOf inpJs).rules.find? (·.name = "quotes") = some chosen
      else if "quotes" ∈ (pkgOf inpTs).rules.map (·.name) then
        (pkgOf inpTs).rules.find? (·.name = "quotes") = some chosen
      else (pkgOf inpJsx).rules.find? (·.name = "quotes") = some chosen) ∧
      (∃ r ∈ mergedRules (pkgOf inpJs) (pkgOf inpTs) (pkgOf inpJsx),
        r.name = "quotes") ∧
      (∀ r ∈ mergedRules (pkgOf inpJs) (pkgOf inpTs) (pkgOf inpJsx),
        r.name = "quotes" →
        r = { chosen with ruleId := "@stylistic/" ++ "quotes", originalId := none }) :=
  c3_merge_precedence (pkgOf inpJs) (pkgOf inpTs) (pkgOf inpJsx) "quotes"
    (Or.inr (Or.inl (by decide)))

/-- C4: the merged package's rule-name list is the insertion-order
deduplication of the concatenated js/ts/jsx name lists (update.ts:49-53):
it has no duplicates, it contains exactly the union of the three name
sets, and it decomposes as the js names in order, then the previously
unseen ts names, then the previously unseen jsx names — first-encounter
order across the precedence list, not alphabetical. -/
theorem c4_merged_union (pJs pTs pJsx : PackageInfo) :
    (mergedRules pJs pTs pJsx).map (·.name) =
      dedupNames (pJs.rules.map (·.name) ++ pTs.rules.map (·.name)
        ++ pJsx.rules.map (·.name)) ∧
    ((mergedRules pJs pTs pJsx).map (·.name)).Nodup ∧
    (∀ n, n ∈ (mergedRules pJs pTs pJsx).map (·.name) ↔
      (n ∈ pJs.rules.map (·.name) ∨ n ∈ pTs.rules.map (·.name)
        ∨ n ∈ pJsx.rules.map (·.name))) ∧
    (mergedRules pJs pTs pJsx).map (·.name) =
      dedupNames (pJs.rules.map (·.name))
        ++ dedupNames ((pTs.rules.map (·.name)).filter
            fun x => decide (x ∉ pJs.rules.map (·.name)))
        ++ dedupNames ((pJsx.rules.map (·.name)).filter
            fun x => decide (x ∉ pJs.rules.map (·.name))
              && decide (x ∉ pTs.rules.map (·.name))) := by
  have h1 := mergedRules_names pJs pTs pJsx
  refine ⟨h1, ?_, ?_, ?_⟩
  · rw [h1]
    exact dedupNames_nodup _
  · intro n
    rw [h1, mem_dedupNames]
    simp [List.mem_append, or_assoc]
  · rw [h1, dedupNames_decomp]

/-- C5: when compiling schema entry `k` of a rule fails, that entry's
declaration becomes the placeholder `export type Schema<k> = unknown`, a
warning naming the rule and the index is emitted (update.ts:287-290), every
sibling entry whose own compilation succeeds keeps its compiled text, and a
rule's output depends only on the compiler's behaviour on that rule's own
(normalized) schemas — so the failure cannot affect any other rule. -/
theorem c5_schema_failure_isolated (compile : String → Nat → Except String String)
    (ruleName : String) (schemas : List String) (k : Nat) (e : String)
    (hk : k < schemas.length)
    (hfail : compile (normalizeSchema (schemas.getD k "")) k = .error e) :
    (compileOptions compile ruleName schemas).1[k]? =
      some ("export type Schema" ++ toString k ++ " = unknown\n") ∧
    ("Failed to compile schema Schema" ++ toString k ++ " for rule " ++ ruleName
      ++ ". Falling back to unknown.") ∈ (compileOptions compile ruleName schemas).2 ∧
    (∀ j t, j < schemas.length → j ≠ k →
      compile (normalizeSchema (schemas.getD j "")) j = .ok t →
      (compileOptions compile ruleName schemas).1[j]? = some t) ∧
    (∀ (compile2 : String → Nat → Except String String) (rule2 : String)
      (schemas2 : List String),
      (∀ i, i < schemas2.length →
        compile2 (normalizeSchema (schemas2.getD i "")) i =
          compile (normalizeSchema (schemas2.getD i "")) i) →
      compileOptions compile2 rule2 schemas2 =
        compileOptions compile rule2 schemas2) := by
  refine ⟨?_, ?_, ?_, ?_⟩
  · rw [compileOptions, compileOptionsFrom_fst_getElem compile ruleName schemas 0 k hk]
    rw [compileEntry_error ruleName (by simpa using hfail)]
    simp
  · have := compileOptionsFrom_warn_mem compile ruleName schemas 0 k e hk
      (by simpa using hfail)
    simpa using this
  · intro j t hj hjk hok
    rw [compileOptions, compileOptionsFrom_fst_getElem compile ruleName schemas 0 j hj]
    rw [compileEntry_ok ruleName (by simpa using hok)]
  · intro compile2 rule2 schemas2 hagree
    rw [compileOptions, compileOptions]
    exact compileOptionsFrom_congr rule2 schemas2 0 compile2 compile
      (fun i hi => by simpa using hagree i hi)

/-- A sample compiler that fails on index 1 and succeeds elsewhere. -/
def sampleCompile : String → Nat → Except String String :=
  fun s i =>
    if i = 1 then .error "unresolvable reference"
    else .ok ("export type Schema" ++ toString i ++ " = " ++ s ++ "\n")

/-- C5 witness: the isolation statement evaluated at a two-entry schema
list whose second entry fails to compile. -/
theorem c5_schema_failure_isolated_witness :
    (compileOptions sampleCompile "indent" ["schemaA", "schemaB"]).1[1]? =
      some ("export type Schema" ++ toString 1 ++ " = unknown\n") ∧
    ("Failed to compile schema Schema" ++ toString 1 ++ " for rule " ++ "indent"
      ++ ". Falling back to unknown.")
      ∈ (compileOptions sampleCompile "indent" ["schemaA", "schemaB"]).2 ∧
    (∀ j t, j < (["schemaA", "schemaB"] : List String).length → j ≠ 1 →
      sampleCompile (normalizeSchema ((["schemaA", "schemaB"] : List String).getD j "")) j = .ok t →
      (compileOptions sampleCompile "indent" ["schemaA", "schemaB"]).1[j]? = some t) ∧
    (∀ (compile2 : String → Nat → Except String String) (rule2 : String)
      (schemas2 : List String),
      (∀ i, i < schemas2.length →
        compile2 (normalizeSchema (schemas2.getD i "")) i =
          sampleCompile (normalizeSchema (schemas2.getD i "")) i) →
      compileOptions compile2 rule2 schemas2 =
        compileOptions sampleCompile rule2 schemas2) :=
  c5_schema_failure_isolated sampleCompile "indent" ["schemaA", "schemaB"] 1
    "unresolvable reference" (by decide) rfl

/-- C6: for a rule module with a `meta` descriptor, the generated file is
the header, the per-entry `Schema<i>` declarations, and the `RuleOptions`
and `MessageIds` lines (update.ts:300-306); `RuleOptions` is `[]` when no
schema is declared, `Schema0` when the schema is a single (non-array)
object, and the all-optional positional tuple `[Schema0?, Schema1?, …]`
when it is an array (update.ts:293-298); `MessageIds` is the union of the
declared message ids as quoted string literals, or `never` when none are
declared (update.ts:304). -/
theorem c6_ruleOptions_messageIds (compile : String → Nat → Except String String)
    (ruleName : String) (modul : RuleModule) (d : DefaultExport) (m : ModMeta)
    (hd : modul.dflt = some d) (hm : d.meta = some m) :
    generateRuleDTS compile ruleName modul =
      .ok ([header] ++ (compileOptions compile ruleName (schemasOf m.schema)).1
          ++ ["export type RuleOptions = "
                ++ ruleOptionTypeValue m.schema (schemasOf m.schema).length,
              "export type MessageIds = " ++ messageIdsType (m.messages.getD []), ""],
        (compileOptions compile ruleName (schemasOf m.schema)).2) ∧
    (m.schema = none →
      ruleOptionTypeValue m.schema (schemasOf m.schema).length = "[]") ∧
    (∀ s, m.schema = some (.single s) →
      ruleOptionTypeValue m.schema (schemasOf m.schema).length = "Schema0") ∧
    (∀ ss, m.schema = some (.arr ss) →
      ruleOptionTypeValue m.schema (schemasOf m.schema).length =
        "[" ++ joinSep ", "
          ((List.range ss.length).map fun i => "Schema" ++ toString i ++ "?") ++ "]") ∧
    (m.messages.getD [] = [] →
      messageIdsType (m.messages.getD []) = "never") ∧
    (m.messages.getD [] ≠ [] →
      messageIdsType (m.messages.getD []) =
        joinSep " | " ((m.messages.getD []).map fun i => sq ++ i ++ sq)) := by
  refine ⟨?_, ?_, ?_, ?_, ?_, ?_⟩
  · simp only [generateRuleDTS, hd, hm]
    rw [show (compileOptions compile ruleName (schemasOf m.schema)).1.length
        = (schemasOf m.schema).length from
      compileOptionsFrom_length compile ruleName (schemasOf m.schema) 0]
  · intro hs
    rw [hs]
    rfl
  · intro s hs
    rw [hs]
    rfl
  · intro ss hs
    rw [hs]
    rfl
  · intro hmsg
    rw [hmsg]
    rfl
  · intro hmsg
    exact messageIdsType_ne_nil _ hmsg

/-- C6 witness: the statement evaluated on the sample `indent` module
(array schema of two entries, one declared message id). -/
theorem c6_ruleOptions_messageIds_witness :
    generateRuleDTS sampleCompile "indent" modIndent =
      .ok ([header] ++ (compileOptions sampleCompile "indent" (schemasOf metaIndent.schema)).1
          ++ ["export type RuleOptions = "
                ++ ruleOptionTypeValue metaIndent.schema (schemasOf metaIndent.schema).length,
              "export type MessageIds = " ++ messageIdsType (metaIndent.messages.getD []), ""],
        (compileOptions sampleCompile "indent" (schemasOf metaIndent.schema)).2) ∧
    (metaIndent.schema = none →
      ruleOptionTypeValue metaIndent.schema (schemasOf metaIndent.schema).length = "[]") ∧
    (∀ s, metaIndent.schema = some (.single s) →
      ruleOptionTypeValue metaIndent.schema (schemasOf metaIndent.schema).length = "Schema0") ∧
    (∀ ss, metaIndent.schema = some (.arr ss) →
      ruleOptionTypeValue metaIndent.schema (schemasOf metaIndent.schema).length =
        "[" ++ joinSep ", "
          ((List.range ss.length).map fun i => "Schema" ++ toString i ++ "?") ++ "]") ∧
    (metaIndent.messages.getD [] = [] →
      messageIdsType (metaIndent.messages.getD []) = "never") ∧
    (metaIndent.messages.getD [] ≠ [] →
      messageIdsType (metaIndent.messages.getD []) =
        joinSep " | " ((metaIndent.messages.getD []).map fun i => sq ++ i ++ sq)) :=
  c6_ruleOptions_messageIds sampleCompile "indent" modIndent
    { meta := some metaIndent } metaIndent rfl rfl

/-- C7: entry resolution is deterministic — the `.ts` entry whenever
`<name>.ts` exists, otherwise the `.js` entry (update.ts:93-95) — and when
neither entry file exists the import of update.ts:98 rejects, so
`readPackage` fails for the whole package instead of skipping the rule. -/
theorem c7_entry_resolution (path : String) (rd : RuleDirInput)
    (inp : PackageInput) (hmem : rd ∈ inp.ruleDirs) :
    (rd.hasTs = true → resolveEntry path rd = tsEntryOf path rd.name) ∧
    (rd.hasTs = false → resolveEntry path rd = jsEntryOf path rd.name) ∧
    (rd.hasTs = false → rd.hasJs = false → ∃ e, readPackage inp = .error e) := by
  refine ⟨?_, ?_, ?_⟩
  · intro h
    rw [resolveEntry, if_pos h]
  · intro h
    rw [resolveEntry, if_neg (by simp [h])]
  · intro hts hjs
    rcases hread : readPackage inp with e | pkg
    · exact ⟨e, rfl⟩
    · exfalso
      rcases readPackage_ok_inv inp pkg hread with ⟨hall, _⟩
      have hmem2 : rd ∈ sortRuleDirs inp.ruleDirs :=
        ((sortByKey_perm _ inp.ruleDirs).mem_iff).mpr hmem
      have hok := hall rd hmem2
      rw [entryOk, hts, hjs] at hok
      exact Bool.noConfusion hok

/-- A rule directory with no entry file of either extension. -/
def rdBroken : RuleDirInput :=
  { name := "broken", hasTs := false, hasJs := false, modul := { dflt := none } }

/-- A sample package containing a rule directory without entry files. -/
def inpBroken : PackageInput :=
  { dir := "eslint-plugin-js", pkgJsonName := "@stylistic/eslint-plugin-js"
    ruleDirs := [rdOf "quotes" modIndent, rdBroken] }

/-- C7 witness: resolution and the fatal failure evaluated on a package
with a broken rule directory. -/
theorem c7_entry_resolution_witness :
    (rdBroken.hasTs = true →
      resolveEntry "packages/eslint-plugin-js" rdBroken =
        tsEntryOf "packages/eslint-plugin-js" rdBroken.name) ∧
    (rdBroken.hasTs = false →
      resolveEntry "packages/eslint-plugin-js" rdBroken =
        jsEntryOf "packages/eslint-plugin-js" rdBroken.name) ∧
    (rdBroken.hasTs = false → rdBroken.hasJs = false →
      ∃ e, readPackage inpBroken = .error e) :=
  c7_entry_resolution "packages/eslint-plugin-js" rdBroken inpBroken
    (by decide)

/-- A filesystem in which only the write of the sample `indent` rule's
`types.d.ts` fails. -/
def c8fs : String → Bool :=
  fun p => p ≠ "packages/eslint-plugin-js/rules/indent/types.d.ts"

/-- A filesystem in which only the awaited write of `rules.md` fails. -/
def c8fsAwaited : String → Bool :=
  fun p => p ≠ "packages/eslint-plugin-js/rules.md"

/-- C8, evaluated at the failing input: when the `types.d.ts` write of a
rule fails, the run does NOT abort — `generateDTS` starts its per-rule
writes with `pkg.rules.map(async ...)` and never awaits them
(update.ts:266-309), so the failed background write (trace index 5) is
followed by `writePackageDTS` (index 7), `updateExports`, and the final
metadata write (index 12), and the whole pipeline still reports success.
By contrast, a failing AWAITED write (here `rules.md` in `writeREADME`)
aborts the remainder of the run immediately, as the claim demands. -/
theorem c8_write_failure_not_aborting :
    (runTr c8fs [pkgOf inpJs]).1 = true ∧
    ((runTr c8fs [pkgOf inpJs]).2)[5]? =
      some (.bgWrite "packages/eslint-plugin-js/rules/indent/types.d.ts" false) ∧
    ((runTr c8fs [pkgOf inpJs]).2)[7]? =
      some (.stage "writePackageDTS" "@stylistic/eslint-plugin-js") ∧
    ((runTr c8fs [pkgOf inpJs]).2)[12]? = some (.stage "writeMetadata" "") ∧
    (runTr c8fsAwaited [pkgOf inpJs]).1 = false ∧
    (runTr c8fsAwaited [pkgOf inpJs]).2 =
      [.stage "writeRulesIndex" "@stylistic/eslint-plugin-js",
       .write "packages/eslint-plugin-js/rules/index.ts" true,
       .stage "writeREADME" "@stylistic/eslint-plugin-js",
       .write "packages/eslint-plugin-js/rules.md" false] := by
  refine ⟨?_, ?_, ?_, ?_, ?_, ?_⟩ <;> decide

/-- C9: the assembled `rules` sequence is the per-rule records in the
lexicographic order of the rule directory names (update.ts:85-88), and —
modelling `Promise.all`'s indexed collection — assembling the
concurrently-completed per-rule results into their own slots yields that
same sequence for EVERY completion order covering the indices; the sorted
directory list is a permutation of the raw one. -/
theorem c9_rules_sorted_schedule_independent (inp : PackageInput)
    (pkg : PackageInfo) (h : readPackage inp = .ok pkg) (order : List Nat)
    (hcover : ∀ j < (sortRuleDirs inp.ruleDirs).length, j ∈ order) :
    pkg.rules.Pairwise (fun a b => strLe a.name b.name = true) ∧
    collectIndexed (sortRuleDirs inp.ruleDirs).length
      (fun i => ruleInfoOf ("packages/" ++ inp.dir) (pkgIdOf inp.dir)
        (shortIdOf (pkgIdOf inp.dir))
        ((sortRuleDirs inp.ruleDirs).getD i emptyRuleDir))
      undefinedRule order = pkg.rules ∧
    (sortRuleDirs inp.ruleDirs).Perm inp.ruleDirs := by
  rcases readPackage_ok_inv inp pkg h with ⟨_, rfl⟩
  refine ⟨?_, ?_, sortByKey_perm _ _⟩
  · rw [List.pairwise_map]
    have hp := sortByKey_pairwise (fun rd : RuleDirInput => "rules/" ++ rd.name)
      inp.ruleDirs
    refine hp.imp ?_
    intro a b hab
    rw [strLe_append_left "rules/" a.name b.name] at hab
    exact hab
  · rw [collectIndexed_eq_map _ _ _ _ hcover, map_getD_range]

/-- C9 witness: the sample js package, with the two concurrent loads
completing in reverse order. -/
theorem c9_rules_sorted_schedule_independent_witness :
    (pkgOf inpJs).rules.Pairwise (fun a b => strLe a.name b.name = true) ∧
    collectIndexed (sortRuleDirs inpJs.ruleDirs).length
      (fun i => ruleInfoOf ("packages/" ++ inpJs.dir) (pkgIdOf inpJs.dir)
        (shortIdOf (pkgIdOf inpJs.dir))
        ((sortRuleDirs inpJs.ruleDirs).getD i emptyRuleDir))
      undefinedRule [1, 0] = (pkgOf inpJs).rules ∧
    (sortRuleDirs inpJs.ruleDirs).Perm inpJs.ruleDirs :=
  c9_rules_sorted_schedule_independent inpJs (pkgOf inpJs) rfl [1, 0]
    (by decide)

/-- C10: whenever the entry file exists, the per-rule load succeeds and
always yields a `meta` record whose `docs` sub-object is present
(update.ts:113-119 construct both unconditionally); when the module has no
default export or its default export has no `meta`, only the leaves
`fixable`, `description` and `recommended` are `undefined` — loading never
fails for that reason. -/
theorem c10_meta_docs_defined (path pkgId shortId : String) (rd : RuleDirInput)
    (hok : entryOk rd = true) :
    ∃ r, loadRule path pkgId shortId rd = .ok r ∧ r.meta.docs.isSome = true ∧
      (rd.modul.dflt.bind (·.meta) = none →
        r.meta = { fixable := none
                   docs := some { description := none, recommended := none } }) := by
  refine ⟨ruleInfoOf path pkgId shortId rd, ?_, rfl, ?_⟩
  · rw [loadRule, if_pos hok]
  · intro hnone
    simp [ruleInfoOf, hnone]

/-- A rule directory whose entry exists but whose module has no default
export. -/
def rdNoMeta : RuleDirInput :=
  { name := "bare", hasTs := true, hasJs := false, modul := { dflt := none } }

/-- C10 witness: the statement evaluated on a loadable module without a
`meta` descriptor. -/
theorem c10_meta_docs_defined_witness :
    ∃ r, loadRule "packages/eslint-plugin-js" "@stylistic/js" "js" rdNoMeta
        = .ok r ∧ r.meta.docs.isSome = true ∧
      (rdNoMeta.modul.dflt.bind (·.meta) = none →
        r.meta = { fixable := none
                   docs := some { description := none, recommended := none } }) :=
  c10_meta_docs_defined "packages/eslint-plugin-js" "@stylistic/js" "js"
    rdNoMeta (by decide)

end Stylistic
